import Mathlib

/-!
# The asset build pipeline of `scripts/build.js`

A shallow embedding of `processHtmlPages` and `buildWorker` and the
properties of the specification settled against it.

Modelling conventions.

* A JavaScript string is a `List Char`.  Every regular expression of the
  script is built from ASCII literals and from the classes `.`, `[^>]`,
  `[\s\S]` and `\d`; a character outside the Basic Multilingual Plane is
  two code units for the engine, each of which is matched by the three
  wide classes and by none of the literals, so match extents coincide.
* `Math.random().toString(36)` is an input: the rendering of each random
  draw is handed to `randomString` as a string.
* terser, html-minifier, esbuild and javascript-obfuscator are parameters:
  functions that either return a text or fail.
-/

namespace BuildJs

/-- A JavaScript string. -/
abbrev Str := List Char

/-! ## String primitives of the language -/

/-- `String.prototype.substring(start, stop)` for non-negative integer
arguments: both are clamped to the length and swapped when out of order. -/
def substring (s : Str) (start stop : Nat) : Str :=
  let a := min start s.length
  let b := min stop s.length
  (s.drop (min a b)).take (max a b - min a b)

/-- Character class of the digits of a base-36 rendering. -/
def isBase36Digit (c : Char) : Bool :=
  ('0' ≤ c && c ≤ '9') || ('a' ≤ c && c ≤ 'z')

/-- Shape of `x.toString(36)` for `0 ≤ x < 1`: either `0`, or `0.` followed
by at least one base-36 digit. -/
def validRendering : Str → Bool
  | ['0'] => true
  | '0' :: '.' :: d :: ds => (d :: ds).all isBase36Digit
  | _ => false

/-- `randomString(len)`, build.js line 25-27, with the rendering
`r = Math.random().toString(36)` made explicit:
`r.substring(2, 2 + len)`. -/
def randomString (len : Nat) (r : Str) : Str :=
  substring r 2 (2 + len)

/-! ## The regular expressions of `processHtmlPages`

Each regular expression is embedded as a matcher: given the text starting
at a position, it returns the length of the match that starts there, if any.
`replaceFirst` and `replaceAll` then scan the positions left to right the way
`String.prototype.replace` does for a non-global and a global expression. -/

/-- Equality of two characters under the `i` flag.  Without the `u` flag the
engine compares upper-cased code units and never folds a non-ASCII character
onto an ASCII one, so against the ASCII patterns used here the comparison is
ASCII case folding. -/
def ciEq (a b : Char) : Bool := a.toUpper == b.toUpper

/-- The literal `p` matches at the start of the text, case-insensitively. -/
def isPrefixCI : Str → Str → Bool
  | [], _ => true
  | _ :: _, [] => false
  | p :: ps, c :: cs => ciEq p c && isPrefixCI ps cs

/-- Matcher of a literal pattern; `ci` is the `i` flag. -/
def matchLit (ci : Bool) (p : Str) (s : Str) : Option Nat :=
  if (if ci then isPrefixCI p s else p.isPrefixOf s) then some p.length else none

/-- Line terminators, the characters `.` does not match. -/
def isLineTerminator (c : Char) : Bool :=
  c == '\n' || c == '\r' || c == Char.ofNat 0x2028 || c == Char.ofNat 0x2029

/-- A lazy repetition `X*?` of a character class followed by a literal
`close`: the length of the shortest text made of class characters and then
`close`, counted up to the end of `close`. -/
def lazyUntil (cls : Char → Bool) (ci : Bool) (close : Str) : Str → Option Nat
  | [] => matchLit ci close []
  | c :: cs =>
    match matchLit ci close (c :: cs) with
    | some n => some n
    | none => if cls c then (lazyUntil cls ci close cs).map (· + 1) else none

/-- The expression `/<title>.*?<\/title>/i` (line 40). -/
def matchTitle (s : Str) : Option Nat :=
  if isPrefixCI "<title>".toList s then
    (lazyUntil (fun c => !isLineTerminator c) true "</title>".toList (s.drop 7)).map (7 + ·)
  else none

/-- The brand literal of line 42. -/
def brandLiteral : Str := "BPB-Worker-Panel".toList

/-- The display-name literal of line 43. -/
def displayLiteral : Str := "BPB Panel".toList

/-- The expression `/BPB-Worker-Panel/gi` (line 42). -/
def matchBrand : Str → Option Nat := matchLit true brandLiteral

/-- The expression `/BPB Panel/gi` (line 43). -/
def matchDisplay : Str → Option Nat := matchLit true displayLiteral

/-- The expression `/v__PANEL_VERSION__/gi` (line 44). -/
def matchVersionTag : Str → Option Nat := matchLit true "v__PANEL_VERSION__".toList

/-- The class `\d`. -/
def isDigit (c : Char) : Bool := '0' ≤ c && c ≤ '9'

/-- A greedy `\d+` followed by the continuation `k`: the digit run is taken
whole (a shorter run would be followed by a digit, which no continuation
used here accepts), and must be non-empty. -/
def digitsThen (k : Str → Option Nat) (s : Str) : Option Nat :=
  let n := (s.takeWhile isDigit).length
  if n = 0 then none else (k (s.drop n)).map (n + ·)

/-- A single `\.` followed by the continuation `k`. -/
def dotThen (k : Str → Option Nat) : Str → Option Nat
  | '.' :: s => (k s).map (1 + ·)
  | _ => none

/-- The expression `/v\d+\.\d+\.\d+/gi` (line 45). -/
def matchVersionNum : Str → Option Nat
  | [] => none
  | c :: s =>
    if ciEq 'v' c then
      (digitsThen (dotThen (digitsThen (dotThen (digitsThen (fun _ => some 0))))) s).map (1 + ·)
    else none

/-- The expression `/<!--[\s\S]*?-->/g` (line 47). -/
def matchComment (s : Str) : Option Nat :=
  if "<!--".toList.isPrefixOf s then
    (lazyUntil (fun _ => true) false "-->".toList (s.drop 4)).map (4 + ·)
  else none

/-- Some text of `ps` occurs in `s`, case-insensitively. -/
def occursAnyCI (ps : List Str) : Str → Bool
  | [] => ps.any (fun p => isPrefixCI p [])
  | c :: cs => ps.any (fun p => isPrefixCI p (c :: cs)) || occursAnyCI ps cs

/-- The expression `/<meta[^>]+(generator|description|keywords)[^>]*>/gi`
(line 49).  Neither class crosses a `>` and no keyword contains one, so the
closing `>` of a match is the first `>` after `<meta`; a match exists exactly
when that `>` exists and a keyword occurs in the text between, at least one
character after `<meta`. -/
def matchMeta (s : Str) : Option Nat :=
  if isPrefixCI "<meta".toList s then
    let rest := s.drop 5
    let body := rest.takeWhile (fun c => c != '>')
    match rest.drop body.length with
    | [] => none
    | _ :: _ =>
      if occursAnyCI ["generator".toList, "description".toList, "keywords".toList] (body.drop 1)
      then some (5 + body.length + 1) else none
  else none

/-- The expression `/<body.*?>/` (line 51), case-sensitive. -/
def matchBody (s : Str) : Option Nat :=
  if "<body".toList.isPrefixOf s then
    (lazyUntil (fun c => !isLineTerminator c) false ">".toList (s.drop 5)).map (5 + ·)
  else none

/-- The expression `/__STYLE__/g` (line 54). -/
def matchStyleMarker : Str → Option Nat := matchLit false "__STYLE__".toList

/-- The expression `/__SCRIPT__/g` (line 55). -/
def matchScriptMarker : Str → Option Nat := matchLit false "__SCRIPT__".toList

/-! ## `String.prototype.replace` -/

/-- How a match is replaced: from the text before the match, the matched
text and the text after it. -/
abbrev Replacer := Str → Str → Str → Str

/-- Expansion of a replacement string (GetSubstitution) for an expression
without capture groups: `$$` is a dollar sign, `$&` the matched text,
`$` + backtick the text before the match, `$` + apostrophe the text after
it; any other `$` stands for itself. -/
def getSubstitution (matched pre post : Str) : Str → Str
  | [] => []
  | [c] => [c]
  | c :: d :: t =>
    if c = '$' then
      if d = '$' then '$' :: getSubstitution matched pre post t
      else if d = '&' then matched ++ getSubstitution matched pre post t
      else if d = Char.ofNat 96 then pre ++ getSubstitution matched pre post t
      else if d = Char.ofNat 39 then post ++ getSubstitution matched pre post t
      else c :: getSubstitution matched pre post (d :: t)
    else c :: getSubstitution matched pre post (d :: t)

/-- Replacement by a string: the string is expanded at every match. -/
def byString (repl : Str) : Replacer :=
  fun pre matched post => getSubstitution matched pre post repl

/-- Replacement by a function of the matched text: no expansion. -/
def byFunction (f : Str → Str) : Replacer :=
  fun _ matched _ => f matched

/-- `s.replace(re, r)` for a non-global expression: the leftmost match is
replaced, the rest of the text is kept.  `pre` is the text already passed. -/
def replaceFirstFrom (m : Str → Option Nat) (r : Replacer) (pre : Str) : Str → Str
  | [] =>
    match m [] with
    | some _ => r pre [] []
    | none => []
  | c :: cs =>
    match m (c :: cs) with
    | some n => r pre ((c :: cs).take n) ((c :: cs).drop n) ++ (c :: cs).drop n
    | none => c :: replaceFirstFrom m r (pre ++ [c]) cs

/-- `s.replace(re, r)` for a global expression: matches are found left to
right, each search starting where the previous match ended (one character
further after an empty match).  `skip` counts the characters of the current
match still to be passed over. -/
def replaceAllFrom (m : Str → Option Nat) (r : Replacer) (pre : Str) (skip : Nat) : Str → Str
  | [] =>
    if skip = 0 then
      match m [] with
      | some _ => r pre [] []
      | none => []
    else []
  | c :: cs =>
    match skip with
    | k + 1 => replaceAllFrom m r (pre ++ [c]) k cs
    | 0 =>
      match m (c :: cs) with
      | some 0 => r pre [] (c :: cs) ++ c :: replaceAllFrom m r (pre ++ [c]) 0 cs
      | some (n + 1) =>
        r pre ((c :: cs).take (n + 1)) ((c :: cs).drop (n + 1))
          ++ replaceAllFrom m r (pre ++ [c]) n cs
      | none => c :: replaceAllFrom m r (pre ++ [c]) 0 cs

/-- Non-global `replace`. -/
def replaceFirst (m : Str → Option Nat) (r : Replacer) (s : Str) : Str :=
  replaceFirstFrom m r [] s

/-- Global `replace`. -/
def replaceAll (m : Str → Option Nat) (r : Replacer) (s : Str) : Str :=
  replaceAllFrom m r [] 0 s

/-- The expression matches somewhere in the text (`re.test(s)`): the text
contains an occurrence of what the expression describes. -/
def hasMatch (m : Str → Option Nat) : Str → Bool
  | [] => (m []).isSome
  | c :: cs => (m (c :: cs)).isSome || hasMatch m cs

/-- A text with every character upper-cased. -/
def up (s : Str) : Str := s.map Char.toUpper

/-- The token keeps occurrences of `Q` apart: an occurrence in a text that
contains the token lies before it or after it. -/
def Separates (Q tok : Str) : Prop :=
  ∀ A B : Str, Q <:+: A ++ up tok ++ B → Q <:+: A ∨ Q <:+: B

/-- Two texts agree as far as both go: one of them starts with the other. -/
def agree : Str → Str → Bool
  | [], _ => true
  | _ :: _, [] => true
  | x :: xs, y :: ys => x == y && agree xs ys

/-- Some non-empty end of `X` agrees with `Y`: laid over a text, `X` can
start before `Y` and run into it. -/
def runsInto : Str → Str → Bool
  | [], _ => false
  | x :: xs, Y => agree (x :: xs) Y || runsInto xs Y

/-- A replacement token that cannot take part in an occurrence of the literal
`lit`, whatever text surrounds it: it has no `$`, and, up to letter case, no
end of the literal agrees with the token and no end of the token agrees with
the literal.  The empty token is not inert.  For a token of lowercase letters
and digits and the brand literal this says: the token is not a piece of
`bpb`, `worker` or `panel`, does not start with `l`, `el`, `nel`, `anel` or
`panel`, and does not end with `b`, `bp` or `bpb`. -/
def inert (lit tok : Str) : Bool :=
  !tok.contains '$' && !runsInto (up lit) (up tok) && !runsInto (up tok) (up lit)

/-! ## The page sanitiser: lines 40-55 of `processHtmlPages` -/

/-- The renderings `Math.random().toString(36)` of the random draws made
for one page, in the order of the calls of `randomString`. -/
structure Draws where
  title : Str
  brand : Str
  display : Str
  versionTag : Str
  versionNum : Str
  decoy : Str

/-- Line 40: the first title element. -/
def step1 (d : Draws) (html : Str) : Str :=
  replaceFirst matchTitle
    (byString ("<title>".toList ++ randomString 10 d.title ++ "</title>".toList)) html

/-- Lines 42-45: the four literal replacements. -/
def step2 (d : Draws) (html : Str) : Str :=
  let h1 := replaceAll matchBrand (byString (randomString 12 d.brand)) html
  let h2 := replaceAll matchDisplay (byString (randomString 10 d.display)) h1
  let h3 := replaceAll matchVersionTag (byString (randomString 6 d.versionTag)) h2
  replaceAll matchVersionNum (byString (randomString 6 d.versionNum)) h3

/-- Line 47: comments. -/
def step3 (html : Str) : Str :=
  replaceAll matchComment (byString []) html

/-- Line 49: meta tags.  The replacement string is empty, so the capture
group of the expression plays no role. -/
def step4 (html : Str) : Str :=
  replaceAll matchMeta (byString []) html

/-- Line 51: the hidden element after the opening body tag. -/
def step5 (d : Draws) (html : Str) : Str :=
  replaceFirst matchBody
    (byFunction (fun matched =>
      matched ++ "<div style=\"display:none\">".toList ++ randomString 16 d.decoy
        ++ "</div>".toList)) html

/-- Lines 53-55: the two placeholders; the script marker is looked for in
the text that results from the style replacement. -/
def step6 (styleCode scriptCode : Str) (html : Str) : Str :=
  replaceAll matchScriptMarker (byString scriptCode)
    (replaceAll matchStyleMarker
      (byString ("<style>".toList ++ styleCode ++ "</style>".toList)) html)

/-- The text `html` after line 51 (steps 1 to 5). -/
def sanitizeTemplate (d : Draws) (indexHtml : Str) : Str :=
  step5 d (step4 (step3 (step2 d (step1 d indexHtml))))

/-- The text `finalHtml` of line 53, handed to the HTML minifier. -/
def finalHtml (d : Draws) (indexHtml styleCode scriptCode : Str) : Str :=
  step6 styleCode scriptCode (sanitizeTemplate d indexHtml)

/-! ## The build: `processHtmlPages` and `buildWorker` -/

/-- A page directory found by `globSync('**/index.html')`: the directory
name `pathDirname(relativeIndexPath)` and the content of its three files,
`none` for a file that `readFileSync` cannot read. -/
structure PageDir where
  dir : String
  indexHtml : Option Str
  styleCss : Option Str
  scriptJs : Option Str

/-- The third-party transformations, each returning its text or failing. -/
structure Services where
  /-- The call `jsMinify(scriptCode)` of line 37 and its `.code`. -/
  minifyScript : Str → Except String Str
  /-- The call `htmlMinify(finalHtml, ...)` of line 57. -/
  htmlMinify : Str → Except String Str
  /-- The built-in `JSON.stringify` on a string. -/
  jsonStringify : Str → Str
  /-- The call `build(...)` of line 76 with the given `define` mapping, and
  the `text` of its first output file. -/
  bundle : List (String × Str) → Except String Str
  /-- The call `jsMinify(text, ...)` of line 99 and its `.code`. -/
  minifyWorker : Str → Except String Str
  /-- The call `obfs.obfuscate(...)` of line 108 and its obfuscated code. -/
  obfuscate : Str → Except String Str

/-- What a run of the script depends on, besides the services. -/
structure Env where
  /-- The variable `process.env.NODE_ENV`; `none` when unset. -/
  nodeEnv : Option String
  /-- The page directories in the order `globSync` lists them. -/
  pages : List PageDir
  /-- The random renderings drawn while the i-th directory is processed. -/
  draws : Nat → Draws
  /-- The base64 text of `./src/assets/favicon.ico`; `none` when unreadable. -/
  favicon : Option Str
  /-- Whether `mkdirSync` or `writeFileSync` succeeds on a path. -/
  canWrite : String → Bool

/-- `readFileSync(path, 'utf8')`. -/
def readFileSync (path : String) (content : Option Str) : Except String Str :=
  match content with
  | some text => .ok text
  | none => .error ("ENOENT: no such file or directory, open " ++ path)

/-- The body of the loop of `processHtmlPages`, lines 30-63, up to the
value stored under the directory name. -/
def processPage (sv : Services) (d : Draws) (p : PageDir) : Except String Str :=
  match readFileSync (p.dir ++ "/index.html") p.indexHtml with
  | .error e => .error e
  | .ok indexHtml =>
    match readFileSync (p.dir ++ "/style.css") p.styleCss with
    | .error e => .error e
    | .ok styleCode =>
      match readFileSync (p.dir ++ "/script.js") p.scriptJs with
      | .error e => .error e
      | .ok scriptCode =>
        match sv.minifyScript scriptCode with
        | .error e => .error e
        | .ok finalScriptCode =>
          match sv.htmlMinify (finalHtml d indexHtml styleCode finalScriptCode) with
          | .error e => .error e
          | .ok minifiedHtml => .ok (sv.jsonStringify minifiedHtml)

/-- The assignment `result[dir] = value` on the object `result`. -/
def setKey (result : List (String × Str)) (dir : String) (value : Str) : List (String × Str) :=
  match result with
  | [] => [(dir, value)]
  | (k, v) :: rest => if k = dir then (k, value) :: rest else (k, v) :: setKey rest dir value

/-- The loop of `processHtmlPages`, line 29: `i` is the index of the next
directory, `result` the object built so far. -/
def processHtmlPagesFrom (sv : Services) (draws : Nat → Draws) :
    Nat → List PageDir → List (String × Str) → Except String (List (String × Str))
  | _, [], result => .ok result
  | i, p :: ps, result =>
    match processPage sv (draws i) p with
    | .error e => .error e
    | .ok value => processHtmlPagesFrom sv draws (i + 1) ps (setKey result p.dir value)

/-- The function `processHtmlPages`, lines 20-68: the object that maps each
directory name to its processed page. -/
def processHtmlPages (sv : Services) (env : Env) : Except String (List (String × Str)) :=
  processHtmlPagesFrom sv env.draws 0 env.pages []

/-- The page keys discovered by `processHtmlPages`. -/
def discoveredKeys (env : Env) : List String :=
  env.pages.map PageDir.dir

/-- The expression `htmls[key] ?? '""'`. -/
def htmlOrEmpty (htmls : List (String × Str)) (key : String) : Str :=
  match htmls.lookup key with
  | some value => value
  | none => "\"\"".toList

/-- The `define` mapping of lines 84-90. -/
def defineMap (sv : Services) (htmls : List (String × Str)) (faviconBase64 : Str) :
    List (String × Str) :=
  [ ("__PANEL_HTML_CONTENT__", htmlOrEmpty htmls "panel"),
    ("__LOGIN_HTML_CONTENT__", htmlOrEmpty htmls "login"),
    ("__ERROR_HTML_CONTENT__", htmlOrEmpty htmls "error"),
    ("__SECRETS_HTML_CONTENT__", htmlOrEmpty htmls "secrets"),
    ("__ICON__", sv.jsonStringify faviconBase64) ]

/-- Line 11: `process.env.NODE_ENV || 'production'`. -/
def envName (nodeEnv : Option String) : String :=
  match nodeEnv with
  | none => "production"
  | some v => if v = "" then "production" else v

/-- Line 12: `env !== 'production'`. -/
def devMode (nodeEnv : Option String) : Bool :=
  envName nodeEnv != "production"

/-- What a run does, in the order in which it happens. -/
inductive Event where
  /-- A line printed by `console.log`. -/
  | log (msg : String)
  /-- The call of the bundler, with its `define` mapping. -/
  | bundlerInvoked (define : List (String × Str))
  /-- A successful `mkdirSync`. -/
  | mkdir (path : String)
  /-- A successful `writeFileSync` of a text. -/
  | writeFile (path : String) (content : Str)
  /-- The call `zip.generateAsync(...)`, with the entries of the archive. -/
  | zipStarted (entries : List (String × Str))
  /-- The callback of line 134: the generated archive written to a path. -/
  | writeArchive (path : String) (entries : List (String × Str))
  /-- The promise returned by `buildWorker` is fulfilled. -/
  | resolved
  /-- The promise returned by `buildWorker` is rejected: the handler of
  line 139 logs the error and exits with status 1. -/
  | buildFailed (err : String)
  /-- The callback of line 134 throws: a rejection with no handler. -/
  | unhandledRejection (err : String)
  deriving DecidableEq

/-- The method `zip.file(name, data)` on the entries of an archive. -/
def zipFile (entries : List (String × Str)) (name : String) (data : Str) : List (String × Str) :=
  setKey entries name data

/-- Lines 95-123: the module text for the packaging step, with the lines
logged on the way. -/
def finalCode (sv : Services) (nodeEnv : Option String) (text : Str) :
    List Event × Except String Str :=
  if devMode nodeEnv then ([], .ok text)
  else
    match sv.minifyWorker text with
    | .error e => ([], .error e)
    | .ok minifiedCode =>
      match sv.obfuscate minifiedCode with
      | .error e => ([.log "✅ Worker minified successfuly!"], .error e)
      | .ok obfuscated =>
        ([.log "✅ Worker minified successfuly!", .log "✅ Worker obfuscated successfuly!"],
          .ok obfuscated)

/-- The text written to `./dist/worker.js` and stored in the archive,
line 125. -/
def workerText (code : Str) : Str :=
  "// @ts-nocheck\n".toList ++ code

/-- Line 18: `join(__dirname, '../dist/')`, written relative to the directory
of the script. -/
def DIST_PATH : String := "../dist/"

/-- Lines 125-136 and what follows them.  The promise of `generateAsync` is
not awaited: `Done!` is logged and the function returns before the callback
that writes the archive can run. -/
def packaging (env : Env) (code : Str) : List Event :=
  let worker := workerText code
  if env.canWrite DIST_PATH then
    .mkdir DIST_PATH ::
    if env.canWrite "./dist/worker.js" then
      let zip := zipFile [] "_worker.js" worker
      [ .writeFile "./dist/worker.js" worker, .zipStarted zip, .log "✅ Done!", .resolved,
        if env.canWrite "./dist/worker.zip" then .writeArchive "./dist/worker.zip" zip
        else .unhandledRejection "EACCES: ./dist/worker.zip" ]
    else [.buildFailed "EACCES: ./dist/worker.js"]
  else [.buildFailed ("EACCES: " ++ DIST_PATH)]

/-- The function `buildWorker`, lines 70-137, with the handler of line 139:
the events of a run. -/
def buildWorker (sv : Services) (env : Env) : List Event :=
  match processHtmlPages sv env with
  | .error e => [.buildFailed e]
  | .ok htmls =>
    .log "✅ Assets bundled successfuly!" ::
    match env.favicon with
    | none => [.buildFailed "ENOENT: ./src/assets/favicon.ico"]
    | some faviconBase64 =>
      .bundlerInvoked (defineMap sv htmls faviconBase64) ::
      match sv.bundle (defineMap sv htmls faviconBase64) with
      | .error e => [.buildFailed e]
      | .ok text =>
        .log "✅ Worker built successfuly!" ::
        match finalCode sv env.nodeEnv text with
        | (logs, .error e) => logs ++ [.buildFailed e]
        | (logs, .ok code) => logs ++ packaging env code

/-- A run ends in failure: the handler of line 139 has run. -/
def endsInFailure (trace : List Event) : Bool :=
  trace.any (fun e => match e with | .buildFailed _ => true | _ => false)

/-- An event that invokes the Module Bundler. -/
def Event.isBundlerCall : Event → Bool
  | .bundlerInvoked _ => true
  | _ => false

/-- An event that creates or writes something in the output location. -/
def Event.isOutputWrite : Event → Bool
  | .mkdir _ => true
  | .writeFile _ _ => true
  | .writeArchive _ _ => true
  | _ => false

/-- What an observer of a run knows at a point in time. -/
structure BuildState where
  /-- `Done!` has been logged. -/
  doneLogged : Bool
  /-- The promise of `buildWorker` is fulfilled. -/
  resolved : Bool
  /-- The generation of the archive has been started and the callback that
  writes it has not run yet. -/
  archivePending : Bool
  /-- The archive file has been written. -/
  archiveWritten : Bool
  deriving DecidableEq

/-- The state before the run. -/
def BuildState.init : BuildState := ⟨false, false, false, false⟩

/-- The effect of one event on the state. -/
def BuildState.step (s : BuildState) : Event → BuildState
  | .log msg => if msg = "✅ Done!" then { s with doneLogged := true } else s
  | .zipStarted _ => { s with archivePending := true }
  | .writeArchive _ _ => { s with archivePending := false, archiveWritten := true }
  | .unhandledRejection _ => { s with archivePending := false }
  | .resolved => { s with resolved := true }
  | _ => s

/-- The state after the first `n` events of a run. -/
def stateAfter (trace : List Event) (n : Nat) : BuildState :=
  (trace.take n).foldl BuildState.step BuildState.init

/-- Events before the packaging step: they leave the observed state alone. -/
def Event.isPrelude : Event → Bool
  | .log msg => msg != "✅ Done!"
  | .bundlerInvoked _ => true
  | _ => false

/-! ## Sample inputs -/

/-- Services that return their input unchanged; the bundler returns a fixed
module text. -/
def sampleServices : Services :=
  { minifyScript := .ok
    htmlMinify := .ok
    jsonStringify := id
    bundle := fun _ => .ok "export default 1".toList
    minifyWorker := .ok
    obfuscate := .ok }

/-- Renderings of six random draws, each with eleven digits. -/
def sampleDraws : Draws :=
  { title := "0.4fzyo82mvyr".toList
    brand := "0.x3m9qd70c2t".toList
    display := "0.zu1h5s7dg4y".toList
    versionTag := "0.t8j2xq6c0mz".toList
    versionNum := "0.h07cd3v5q9x".toList
    decoy := "0.g5tq1zx8m3d".toList }

/-- An asset tree with the directories `panel` and `about`, a readable icon
and a writable output location; NODE_ENV is `development`. -/
def sampleEnv : Env :=
  { nodeEnv := some "development"
    pages :=
      [ ⟨"panel", some "<p>a</p>".toList, some "p{}".toList, some "f()".toList⟩,
        ⟨"about", some "<p>b</p>".toList, some "p{}".toList, some "g()".toList⟩ ]
    draws := fun _ => sampleDraws
    favicon := some "AAAB".toList
    canWrite := fun _ => true }

/-- Renderings whose step-2 tokens begin and end with letters of the
literals: `o4cauowretk`, `gjf067ndbk`, `ozleqk`, `w7cd3p`. -/
def letterDraws : Draws :=
  { title := "0.4fzyo82mvyr".toList
    brand := "0.o4cauowretk".toList
    display := "0.gjf067ndbk".toList
    versionTag := "0.ozleqk".toList
    versionNum := "0.w7cd3p".toList
    decoy := "0.g5tq1zx8m3d".toList }

/-- Renderings whose brand token `k2m9qd70cbpb` ends with the first word of
the brand literal. -/
def stitchDraws : Draws :=
  { sampleDraws with brand := "0.k2m9qd70cbpb".toList }

/-- Renderings whose brand token is empty: the draw 0. -/
def zeroDraws : Draws :=
  { sampleDraws with brand := "0".toList }

/-! ## Properties of `randomString` -/

theorem randomString_eq (len : Nat) (r : Str) : randomString len r = (r.drop 2).take len := by
  unfold randomString substring
  by_cases h : 2 ≤ r.length
  · have h1 : min 2 r.length = 2 := by omega
    by_cases h2 : 2 + len ≤ r.length
    · have h3 : min (2 + len) r.length = 2 + len := by omega
      simp only [h1, h3]
      have : min 2 (2 + len) = 2 := by omega
      have h4 : max 2 (2 + len) = 2 + len := by omega
      simp [this, h4]
    · have h3 : min (2 + len) r.length = r.length := by omega
      simp only [h1, h3]
      have : min 2 r.length = 2 := by omega
      have h4 : max 2 r.length = r.length := by omega
      simp only [this, h4]
      rw [List.take_of_length_le (by simp), List.take_of_length_le (by simp; omega)]
  · have h1 : min 2 r.length = r.length := by omega
    have h3 : min (2 + len) r.length = r.length := by omega
    simp only [h1, h3]
    rw [List.drop_of_length_le (by omega : r.length ≤ 2)]
    simp

theorem validRendering_digits (r : Str) (h : validRendering r = true) :
    ∀ c ∈ r.drop 2, isBase36Digit c = true := by
  unfold validRendering at h
  split at h
  · simp
  · intro c hc
    simp only [List.drop_succ_cons, List.drop_zero] at hc
    exact List.all_eq_true.mp h c hc
  · exact absurd h (by simp)

theorem randomString_no_dollar (len : Nat) (r : Str) (h : validRendering r = true) :
    '$' ∉ randomString len r := by
  intro hm
  rw [randomString_eq] at hm
  have := validRendering_digits r h '$' (List.mem_of_mem_take hm)
  exact absurd this (by decide)

/-- What `randomString` does return, for every requested length and every
rendering of the random draw: the first `len` digits of the rendering after
`0.`, as many as there are; so at most `len` characters, each a lowercase
letter or a digit. -/
theorem randomString_length_and_alphabet (len : Nat) (r : Str)
    (h : validRendering r = true) :
    randomString len r = (r.drop 2).take len
      ∧ (randomString len r).length = min len (r.length - 2)
      ∧ ∀ c ∈ randomString len r, isBase36Digit c = true := by
  rw [randomString_eq]
  refine ⟨rfl, by simp, ?_⟩
  intro c hc
  exact validRendering_digits r h c (List.mem_of_mem_take hc)

/-- C9 fails on the code: `randomString(len)` does not always have `len`
characters.  A draw is rendered with about eleven base-36 digits, so the
requested lengths 12 and 16 are not reached: on the rendering `0.x3m9qd70c2t`
both give the eleven characters `x3m9qd70c2t`.  The draw 0.5, rendered `0.i`,
gives the one character `i` for the length 6, and the draw 0, rendered `0`,
gives the empty string. -/
theorem randomString_shorter_than_requested :
    validRendering "0.x3m9qd70c2t".toList = true
      ∧ randomString 16 "0.x3m9qd70c2t".toList = "x3m9qd70c2t".toList
      ∧ (randomString 16 "0.x3m9qd70c2t".toList).length ≠ 16
      ∧ (randomString 12 "0.x3m9qd70c2t".toList).length ≠ 12
      ∧ validRendering "0.i".toList = true
      ∧ randomString 6 "0.i".toList = "i".toList
      ∧ (randomString 6 "0.i".toList).length ≠ 6
      ∧ validRendering "0".toList = true
      ∧ randomString 10 "0".toList = [] := by
  decide

/-! ## Build mode and packaging -/

theorem devMode_iff (nodeEnv : Option String) :
    devMode nodeEnv = true ↔ ∃ v, nodeEnv = some v ∧ v ≠ "" ∧ v ≠ "production" := by
  unfold devMode envName
  cases nodeEnv with
  | none => simp
  | some v =>
    by_cases h : v = ""
    · simp [h]
    · simp [h]

/-- C6: for every bundler output `t`, in development mode (NODE_ENV set to a
non-empty value other than `production`) the module text handed to the
packaging step is `t` itself and neither the minifier nor the obfuscator is
consulted; in production mode (NODE_ENV unset, empty or `production`) it is
the obfuscation of the minification of `t`, failing when either fails. -/
theorem finalCode_by_mode (sv : Services) (nodeEnv : Option String) (t : Str) :
    ((∃ v, nodeEnv = some v ∧ v ≠ "" ∧ v ≠ "production") →
        finalCode sv nodeEnv t = ([], .ok t))
      ∧ ((nodeEnv = none ∨ nodeEnv = some "" ∨ nodeEnv = some "production") →
        (finalCode sv nodeEnv t).2 = (sv.minifyWorker t).bind sv.obfuscate
          ∧ ∀ m o, sv.minifyWorker t = .ok m → sv.obfuscate m = .ok o →
              (finalCode sv nodeEnv t).2 = .ok o) := by
  constructor
  · intro h
    have hd : devMode nodeEnv = true := (devMode_iff nodeEnv).mpr h
    simp [finalCode, hd]
  · intro h
    have hd : devMode nodeEnv = false := by
      rcases h with h | h | h <;> subst h <;> decide
    have key : (finalCode sv nodeEnv t).2 = (sv.minifyWorker t).bind sv.obfuscate := by
      simp only [finalCode, hd]
      cases hm : sv.minifyWorker t with
      | error e => simp [Except.bind]
      | ok m =>
        cases ho : sv.obfuscate m with
        | error e => simp [Except.bind, ho]
        | ok o => simp [Except.bind, ho]
    refine ⟨key, ?_⟩
    intro m o hm ho
    rw [key, hm]
    simp [Except.bind, ho]

/-- Witness of `finalCode_by_mode`: NODE_ENV=development passes the bundle
through, NODE_ENV unset runs both stages. -/
theorem finalCode_by_mode_witness :
    finalCode ⟨.ok, .ok, id, fun _ => .ok [], fun t => .ok ('m' :: t), fun t => .ok ('o' :: t)⟩
        (some "development") "x".toList = ([], .ok "x".toList)
      ∧ (finalCode ⟨.ok, .ok, id, fun _ => .ok [], fun t => .ok ('m' :: t), fun t => .ok ('o' :: t)⟩
        none "x".toList).2 = .ok "omx".toList :=
  ⟨(finalCode_by_mode _ (some "development") "x".toList).1 ⟨"development", rfl, by decide, by decide⟩,
   ((finalCode_by_mode ⟨.ok, .ok, id, fun _ => .ok [], fun t => .ok ('m' :: t), fun t => .ok ('o' :: t)⟩
      none "x".toList).2 (Or.inl rfl)).2 "mx".toList "omx".toList rfl rfl⟩

/-- C7: for every final module text `f`, once the archive has been written,
it has been written to `./dist/worker.zip`, it has exactly one entry, named
`_worker.js`, and the content of that entry is the text written to
`./dist/worker.js`: the line `// @ts-nocheck`, a newline, then `f`. -/
theorem archive_single_entry_equals_worker_file (env : Env) (f : Str) (path : String)
    (entries : List (String × Str))
    (h : Event.writeArchive path entries ∈ packaging env f) :
    path = "./dist/worker.zip"
      ∧ entries = [("_worker.js", "// @ts-nocheck\n".toList ++ f)]
      ∧ Event.writeFile "./dist/worker.js" ("// @ts-nocheck\n".toList ++ f) ∈ packaging env f
      ∧ ∀ p c, Event.writeFile p c ∈ packaging env f →
          p = "./dist/worker.js" ∧ entries = [("_worker.js", c)] := by
  unfold packaging at h ⊢
  by_cases h1 : env.canWrite DIST_PATH = true
  · by_cases h2 : env.canWrite "./dist/worker.js" = true
    · by_cases h3 : env.canWrite "./dist/worker.zip" = true
      · simp [h1, h2, h3, zipFile, setKey, workerText] at h ⊢
        exact h
      · simp [h1, h2, h3] at h
    · simp [h1, h2] at h
  · simp [h1] at h

/-- Witness of `archive_single_entry_equals_worker_file`: a run in which
every write succeeds. -/
theorem archive_single_entry_equals_worker_file_witness :
    "./dist/worker.zip" = "./dist/worker.zip"
      ∧ [("_worker.js", workerText "f()".toList)]
          = [("_worker.js", "// @ts-nocheck\n".toList ++ "f()".toList)]
      ∧ Event.writeFile "./dist/worker.js" ("// @ts-nocheck\n".toList ++ "f()".toList)
          ∈ packaging ⟨none, [], fun _ => ⟨[], [], [], [], [], []⟩, none, fun _ => true⟩ "f()".toList
      ∧ ∀ p c, Event.writeFile p c
          ∈ packaging ⟨none, [], fun _ => ⟨[], [], [], [], [], []⟩, none, fun _ => true⟩ "f()".toList →
          p = "./dist/worker.js" ∧ [("_worker.js", workerText "f()".toList)] = [("_worker.js", c)] :=
  archive_single_entry_equals_worker_file
    ⟨none, [], fun _ => ⟨[], [], [], [], [], []⟩, none, fun _ => true⟩ "f()".toList
    "./dist/worker.zip" [("_worker.js", workerText "f()".toList)]
    (by simp [packaging, zipFile, setKey])

/-! ## Missing assets -/

theorem processPage_missing (sv : Services) (d : Draws) (p : PageDir)
    (h : p.styleCss = none ∨ p.scriptJs = none) :
    ∃ e, processPage sv d p = .error e := by
  unfold processPage readFileSync
  cases hi : p.indexHtml with
  | none => exact ⟨_, rfl⟩
  | some i =>
    cases hs : p.styleCss with
    | none => exact ⟨_, rfl⟩
    | some s =>
      cases hj : p.scriptJs with
      | none => exact ⟨_, rfl⟩
      | some j => rcases h with h | h <;> simp_all

theorem processHtmlPagesFrom_missing (sv : Services) (draws : Nat → Draws) (ps : List PageDir) :
    ∀ (i : Nat) (result : List (String × Str)),
      (∃ p ∈ ps, p.styleCss = none ∨ p.scriptJs = none) →
      ∃ e, processHtmlPagesFrom sv draws i ps result = .error e := by
  induction ps with
  | nil => intro i result h; simp at h
  | cons p ps ih =>
    intro i result h
    unfold processHtmlPagesFrom
    cases hp : processPage sv (draws i) p with
    | error e => exact ⟨e, rfl⟩
    | ok v =>
      obtain ⟨q, hq, hmiss⟩ := h
      rcases List.mem_cons.mp hq with rfl | hq
      · obtain ⟨e, he⟩ := processPage_missing sv (draws i) q hmiss
        rw [he] at hp
        exact absurd hp (by simp)
      · exact ih (i + 1) _ ⟨q, hq, hmiss⟩

/-- C4: for every asset tree in which some discovered page directory has its
index.html but lacks style.css or script.js, the run of `buildWorker` ends
in failure, the bundler is never invoked, and nothing is created or written
in the output location: the whole run is the failure report. -/
theorem missing_asset_aborts_build (sv : Services) (env : Env)
    (h : ∃ p ∈ env.pages, p.indexHtml.isSome = true ∧ (p.styleCss = none ∨ p.scriptJs = none)) :
    endsInFailure (buildWorker sv env) = true
      ∧ (∀ e ∈ buildWorker sv env, e.isBundlerCall = false)
      ∧ (∀ e ∈ buildWorker sv env, e.isOutputWrite = false)
      ∧ ∃ err, buildWorker sv env = [Event.buildFailed err] := by
  obtain ⟨p, hp, _, hmiss⟩ := h
  obtain ⟨err, herr⟩ := processHtmlPagesFrom_missing sv env.draws env.pages 0 [] ⟨p, hp, hmiss⟩
  have hrun : buildWorker sv env = [Event.buildFailed err] := by
    simp [buildWorker, processHtmlPages, herr]
  rw [hrun]
  refine ⟨by simp [endsInFailure], ?_, ?_, err, rfl⟩
  · intro e he
    rw [List.mem_singleton.mp he]
    rfl
  · intro e he
    rw [List.mem_singleton.mp he]
    rfl

/-- Witness of `missing_asset_aborts_build`: the directory `panel` has an
index.html and a script.js and no style.css. -/
theorem missing_asset_aborts_build_witness :
    endsInFailure (buildWorker ⟨.ok, .ok, id, fun _ => .ok [], .ok, .ok⟩
        ⟨none, [⟨"panel", some "<p></p>".toList, none, some "x".toList⟩],
          fun _ => ⟨[], [], [], [], [], []⟩, some [], fun _ => true⟩) = true
      ∧ (∀ e ∈ buildWorker ⟨.ok, .ok, id, fun _ => .ok [], .ok, .ok⟩
        ⟨none, [⟨"panel", some "<p></p>".toList, none, some "x".toList⟩],
          fun _ => ⟨[], [], [], [], [], []⟩, some [], fun _ => true⟩, e.isBundlerCall = false)
      ∧ (∀ e ∈ buildWorker ⟨.ok, .ok, id, fun _ => .ok [], .ok, .ok⟩
        ⟨none, [⟨"panel", some "<p></p>".toList, none, some "x".toList⟩],
          fun _ => ⟨[], [], [], [], [], []⟩, some [], fun _ => true⟩, e.isOutputWrite = false)
      ∧ ∃ err, buildWorker ⟨.ok, .ok, id, fun _ => .ok [], .ok, .ok⟩
        ⟨none, [⟨"panel", some "<p></p>".toList, none, some "x".toList⟩],
          fun _ => ⟨[], [], [], [], [], []⟩, some [], fun _ => true⟩ = [Event.buildFailed err] :=
  missing_asset_aborts_build _ _
    ⟨⟨"panel", some "<p></p>".toList, none, some "x".toList⟩, List.mem_singleton.mpr rfl, rfl,
      Or.inl rfl⟩

/-! ## The `define` mapping -/

theorem lookup_setKey (result : List (String × Str)) (dir : String) (value : Str) (k : String) :
    (setKey result dir value).lookup k
      = if k = dir then some value else result.lookup k := by
  induction result with
  | nil =>
    by_cases hk : k = dir
    · simp [setKey, List.lookup, hk]
    · have hb : (k == dir) = false := by simpa using hk
      simp [setKey, List.lookup, hk, hb]
  | cons kv rest ih =>
    obtain ⟨k0, v0⟩ := kv
    unfold setKey
    by_cases h0 : k0 = dir
    · subst h0
      by_cases hk : k = k0
      · simp [List.lookup, hk]
      · have : (k == k0) = false := by simpa using hk
        simp [List.lookup, hk, this]
    · by_cases hk0 : k = k0
      · subst hk0
        have : ¬ k = dir := h0
        simp [h0, List.lookup, this]
      · have hb : (k == k0) = false := by simpa using hk0
        simp [h0, List.lookup, hb, ih]

theorem processHtmlPagesFrom_keys (sv : Services) (draws : Nat → Draws) (ps : List PageDir) :
    ∀ (i : Nat) (result htmls : List (String × Str)),
      processHtmlPagesFrom sv draws i ps result = .ok htmls →
      ∀ k, (htmls.lookup k).isSome = true ↔
        ((result.lookup k).isSome = true ∨ k ∈ ps.map PageDir.dir) := by
  induction ps with
  | nil =>
    intro i result htmls h k
    simp only [processHtmlPagesFrom, Except.ok.injEq] at h
    subst h
    simp
  | cons p ps ih =>
    intro i result htmls h k
    unfold processHtmlPagesFrom at h
    cases hp : processPage sv (draws i) p with
    | error e => rw [hp] at h; exact absurd h (by simp)
    | ok v =>
      rw [hp] at h
      rw [ih (i + 1) _ htmls h k, lookup_setKey]
      by_cases hk : k = p.dir
      · simp [hk]
      · simp only [hk, if_false, List.map_cons, List.mem_cons, false_or]

theorem bundlerInvoked_not_mem_packaging (env : Env) (code : Str) (define : List (String × Str)) :
    Event.bundlerInvoked define ∉ packaging env code := by
  unfold packaging
  by_cases h1 : env.canWrite DIST_PATH = true <;>
  by_cases h2 : env.canWrite "./dist/worker.js" = true <;>
  by_cases h3 : env.canWrite "./dist/worker.zip" = true <;>
  simp [h1, h2, h3]

theorem bundlerInvoked_not_mem_finalCode (sv : Services) (nodeEnv : Option String) (t : Str)
    (define : List (String × Str)) :
    Event.bundlerInvoked define ∉ (finalCode sv nodeEnv t).1 := by
  unfold finalCode
  by_cases hd : devMode nodeEnv = true
  · simp [hd]
  · cases hm : sv.minifyWorker t with
    | error e => simp [hd]
    | ok m =>
      cases ho : sv.obfuscate m with
      | error e => simp [hd, ho]
      | ok o => simp [hd, ho]

theorem bundlerInvoked_mem (sv : Services) (env : Env) (define : List (String × Str))
    (h : Event.bundlerInvoked define ∈ buildWorker sv env) :
    ∃ htmls icon, processHtmlPages sv env = .ok htmls ∧ env.favicon = some icon
      ∧ define = defineMap sv htmls icon := by
  unfold buildWorker at h
  cases hp : processHtmlPages sv env with
  | error e => simp [hp] at h
  | ok htmls =>
    cases hf : env.favicon with
    | none => simp [hp, hf] at h
    | some icon =>
      refine ⟨htmls, icon, rfl, rfl, ?_⟩
      simp only [hp, hf, List.mem_cons, Event.bundlerInvoked.injEq, false_or, reduceCtorEq] at h
      rcases h with h | h
      · exact h
      · exfalso
        cases hb : sv.bundle (defineMap sv htmls icon) with
        | error e => simp [hb] at h
        | ok text =>
          simp only [hb, List.mem_cons, reduceCtorEq, false_or] at h
          have h1 := bundlerInvoked_not_mem_finalCode sv env.nodeEnv text define
          rcases hfc : finalCode sv env.nodeEnv text with ⟨logs, res⟩
          rw [hfc] at h h1
          cases res with
          | error e => simp at h; exact h1 h
          | ok code =>
            simp only [List.mem_append] at h
            rcases h with h | h
            · exact h1 h
            · exact bundlerInvoked_not_mem_packaging env code define h

/-- C5, as the code has it: in every run that invokes the bundler, the
`define` mapping has exactly five entries, the four fixed page symbols and
the icon symbol, whatever directories were discovered; the symbol of `panel`,
`login`, `error` or `secrets` is bound to the processed page of that
directory when it was discovered and to the literal `""` when it was not; a
discovered directory of any other name gets no entry. -/
theorem define_has_five_fixed_entries (sv : Services) (env : Env)
    (define : List (String × Str))
    (h : Event.bundlerInvoked define ∈ buildWorker sv env) :
    define.map Prod.fst
        = ["__PANEL_HTML_CONTENT__", "__LOGIN_HTML_CONTENT__", "__ERROR_HTML_CONTENT__",
            "__SECRETS_HTML_CONTENT__", "__ICON__"]
      ∧ ∃ htmls, processHtmlPages sv env = .ok htmls
        ∧ ∀ key symbol,
            (key, symbol) ∈ [("panel", "__PANEL_HTML_CONTENT__"), ("login", "__LOGIN_HTML_CONTENT__"),
              ("error", "__ERROR_HTML_CONTENT__"), ("secrets", "__SECRETS_HTML_CONTENT__")] →
            (key ∈ discoveredKeys env →
                ∃ page, htmls.lookup key = some page ∧ define.lookup symbol = some page)
              ∧ (key ∉ discoveredKeys env → define.lookup symbol = some "\"\"".toList) := by
  obtain ⟨htmls, icon, hp, _, rfl⟩ := bundlerInvoked_mem sv env define h
  refine ⟨rfl, htmls, hp, ?_⟩
  have hkeys := processHtmlPagesFrom_keys sv env.draws env.pages 0 [] htmls hp
  intro key symbol hmem
  have hk : (htmls.lookup key).isSome = true ↔ key ∈ discoveredKeys env := by
    rw [hkeys key]
    simp [List.lookup, discoveredKeys]
  constructor
  · intro hdisc
    have hsome : (htmls.lookup key).isSome = true := hk.mpr hdisc
    obtain ⟨page, hpage⟩ := Option.isSome_iff_exists.mp hsome
    refine ⟨page, hpage, ?_⟩
    simp only [List.mem_cons, Prod.mk.injEq, List.mem_singleton, List.not_mem_nil, or_false] at hmem
    rcases hmem with ⟨rfl, rfl⟩ | ⟨rfl, rfl⟩ | ⟨rfl, rfl⟩ | ⟨rfl, rfl⟩ <;>
      simp [defineMap, htmlOrEmpty, hpage, List.lookup]
  · intro hdisc
    have hnone : htmls.lookup key = none := by
      cases hl : htmls.lookup key with
      | none => rfl
      | some v => exact absurd (hk.mp (by simp [hl])) hdisc
    simp only [List.mem_cons, Prod.mk.injEq, List.mem_singleton, List.not_mem_nil, or_false] at hmem
    rcases hmem with ⟨rfl, rfl⟩ | ⟨rfl, rfl⟩ | ⟨rfl, rfl⟩ | ⟨rfl, rfl⟩ <;>
      simp [defineMap, htmlOrEmpty, hnone, List.lookup]

/-- Witness of `define_has_five_fixed_entries`: the run on the sample tree
invokes the bundler with the five fixed symbols. -/
theorem define_has_five_fixed_entries_witness :
    (defineMap sampleServices [("panel", "<p>a</p>".toList), ("about", "<p>b</p>".toList)]
        "AAAB".toList).map Prod.fst
        = ["__PANEL_HTML_CONTENT__", "__LOGIN_HTML_CONTENT__", "__ERROR_HTML_CONTENT__",
            "__SECRETS_HTML_CONTENT__", "__ICON__"]
      ∧ ∃ htmls, processHtmlPages sampleServices sampleEnv = .ok htmls
        ∧ ∀ key symbol,
            (key, symbol) ∈ [("panel", "__PANEL_HTML_CONTENT__"), ("login", "__LOGIN_HTML_CONTENT__"),
              ("error", "__ERROR_HTML_CONTENT__"), ("secrets", "__SECRETS_HTML_CONTENT__")] →
            (key ∈ discoveredKeys sampleEnv →
                ∃ page, htmls.lookup key = some page
                  ∧ (defineMap sampleServices
                      [("panel", "<p>a</p>".toList), ("about", "<p>b</p>".toList)]
                      "AAAB".toList).lookup symbol = some page)
              ∧ (key ∉ discoveredKeys sampleEnv →
                (defineMap sampleServices
                  [("panel", "<p>a</p>".toList), ("about", "<p>b</p>".toList)]
                  "AAAB".toList).lookup symbol = some "\"\"".toList) :=
  define_has_five_fixed_entries sampleServices sampleEnv
    (defineMap sampleServices [("panel", "<p>a</p>".toList), ("about", "<p>b</p>".toList)]
      "AAAB".toList)
    (by decide)

/-- C5 as stated fails: on the sample tree two page keys are discovered,
`panel` and `about`, and the `define` mapping handed to the bundler has five
entries, not three; none of them is the page of `about`. -/
theorem define_entry_count_counterexample :
    discoveredKeys sampleEnv = ["panel", "about"]
      ∧ ∃ define, Event.bundlerInvoked define ∈ buildWorker sampleServices sampleEnv
        ∧ define.length = 5
        ∧ define.length ≠ (discoveredKeys sampleEnv).length + 1
        ∧ ∀ entry ∈ define, entry.2 ≠ "<p>b</p>".toList :=
  ⟨by decide,
    defineMap sampleServices [("panel", "<p>a</p>".toList), ("about", "<p>b</p>".toList)]
      "AAAB".toList,
    by decide, by decide, by decide, by decide⟩

/-! ## The order of `Done!` and the archive -/

theorem step_prelude (s : BuildState) (e : Event) (h : e.isPrelude = true) : s.step e = s := by
  cases e <;> simp_all [Event.isPrelude, BuildState.step]

theorem foldl_step_prelude (pre : List Event) (h : ∀ e ∈ pre, e.isPrelude = true) :
    ∀ s : BuildState, pre.foldl BuildState.step s = s := by
  induction pre with
  | nil => intro s; rfl
  | cons e pre ih =>
    intro s
    rw [List.foldl_cons, step_prelude s e (h e (List.mem_cons_self _ _))]
    exact ih (fun x hx => h x (List.mem_cons_of_mem _ hx)) s

theorem stateAfter_prelude_append (pre rest : List Event) (h : ∀ e ∈ pre, e.isPrelude = true)
    (n : Nat) : stateAfter (pre ++ rest) (pre.length + n) = stateAfter rest n := by
  unfold stateAfter
  rw [List.take_append, List.foldl_append, foldl_step_prelude pre h]

theorem finalCode_logs_prelude (sv : Services) (nodeEnv : Option String) (t : Str) :
    ∀ e ∈ (finalCode sv nodeEnv t).1, e.isPrelude = true := by
  unfold finalCode
  by_cases hd : devMode nodeEnv = true
  · simp [hd]
  · cases hm : sv.minifyWorker t with
    | error e => simp [hd]
    | ok m =>
      cases ho : sv.obfuscate m with
      | error e => simp [hd, ho]; decide
      | ok o => simp [hd, ho]; decide

theorem buildWorker_shape (sv : Services) (env : Env) :
    ∃ pre, (∀ e ∈ pre, e.isPrelude = true)
      ∧ ((∃ code, buildWorker sv env = pre ++ packaging env code)
        ∨ ∃ err, buildWorker sv env = pre ++ [Event.buildFailed err]) := by
  cases hp : processHtmlPages sv env with
  | error e => exact ⟨[], by simp, Or.inr ⟨e, by simp [buildWorker, hp]⟩⟩
  | ok htmls =>
    cases hf : env.favicon with
    | none =>
      exact ⟨[.log "✅ Assets bundled successfuly!"], by simp [Event.isPrelude],
        Or.inr ⟨"ENOENT: ./src/assets/favicon.ico", by simp [buildWorker, hp, hf]⟩⟩
    | some icon =>
      cases hb : sv.bundle (defineMap sv htmls icon) with
      | error e =>
        exact ⟨[.log "✅ Assets bundled successfuly!", .bundlerInvoked (defineMap sv htmls icon)],
          by simp [Event.isPrelude], Or.inr ⟨e, by simp [buildWorker, hp, hf, hb]⟩⟩
      | ok text =>
        have hl := finalCode_logs_prelude sv env.nodeEnv text
        rcases hfc : finalCode sv env.nodeEnv text with ⟨logs, res⟩
        rw [hfc] at hl
        refine ⟨[.log "✅ Assets bundled successfuly!", .bundlerInvoked (defineMap sv htmls icon),
          .log "✅ Worker built successfuly!"] ++ logs, ?_, ?_⟩
        · intro e he
          rcases List.mem_append.mp he with he | he
          · simp only [List.mem_cons, List.mem_singleton, List.not_mem_nil, or_false] at he
            rcases he with rfl | rfl | rfl <;> simp [Event.isPrelude]
          · exact hl e he
        · cases res with
          | error e => exact Or.inr ⟨e, by simp [buildWorker, hp, hf, hb, hfc]⟩
          | ok code => exact Or.inl ⟨code, by simp [buildWorker, hp, hf, hb, hfc]⟩

theorem packaging_done (env : Env) (code : Str)
    (h : Event.log "✅ Done!" ∈ packaging env code) :
    stateAfter (packaging env code) 5 = ⟨true, true, true, false⟩ := by
  unfold packaging at h ⊢
  by_cases h1 : env.canWrite DIST_PATH = true
  · by_cases h2 : env.canWrite "./dist/worker.js" = true
    · simp [h1, h2, stateAfter, BuildState.step, BuildState.init]
    · simp [h1, h2] at h
  · simp [h1] at h

/-- C8 fails on the code: in every run that logs `Done!`, a state is reached
in which `Done!` has been logged and the promise of `buildWorker` is
fulfilled while the generation of the archive is still pending and
`./dist/worker.zip` has not been written. -/
theorem done_reported_while_archive_pending (sv : Services) (env : Env)
    (h : Event.log "✅ Done!" ∈ buildWorker sv env) :
    ∃ n, (stateAfter (buildWorker sv env) n).doneLogged = true
      ∧ (stateAfter (buildWorker sv env) n).resolved = true
      ∧ (stateAfter (buildWorker sv env) n).archivePending = true
      ∧ (stateAfter (buildWorker sv env) n).archiveWritten = false := by
  obtain ⟨pre, hpre, hshape⟩ := buildWorker_shape sv env
  have hnot : Event.log "✅ Done!" ∉ pre := fun hm => by
    have := hpre _ hm
    simp [Event.isPrelude] at this
  rcases hshape with ⟨code, hrun⟩ | ⟨err, hrun⟩
  · rw [hrun] at h ⊢
    have hpk : Event.log "✅ Done!" ∈ packaging env code := by
      rcases List.mem_append.mp h with h | h
      · exact absurd h hnot
      · exact h
    refine ⟨pre.length + 5, ?_⟩
    rw [stateAfter_prelude_append pre _ hpre, packaging_done env code hpk]
    exact ⟨rfl, rfl, rfl, rfl⟩
  · rw [hrun] at h
    rcases List.mem_append.mp h with h | h
    · exact absurd h hnot
    · simp at h

/-- Witness of `done_reported_while_archive_pending`: the run on the sample
tree. -/
theorem done_reported_while_archive_pending_witness :
    ∃ n, (stateAfter (buildWorker sampleServices sampleEnv) n).doneLogged = true
      ∧ (stateAfter (buildWorker sampleServices sampleEnv) n).resolved = true
      ∧ (stateAfter (buildWorker sampleServices sampleEnv) n).archivePending = true
      ∧ (stateAfter (buildWorker sampleServices sampleEnv) n).archiveWritten = false :=
  done_reported_while_archive_pending sampleServices sampleEnv (by decide)

/-! ## Placeholders, comments and the title on concrete templates -/

/-- C2 fails on the code: the stylesheet and the script are passed to
`replace` as replacement strings, in which `$` is special.  With the script
text `a$&b` the marker `__SCRIPT__` becomes `a__SCRIPT__b`, not `a$&b`; with
the stylesheet `x$$y` the marker `__STYLE__` becomes `<style>x$y</style>`. -/
theorem placeholder_dollar_not_verbatim :
    step6 [] "a$&b".toList "<p>__SCRIPT__</p>".toList = "<p>a__SCRIPT__b</p>".toList
      ∧ step6 [] "a$&b".toList "<p>__SCRIPT__</p>".toList ≠ "<p>a$&b</p>".toList
      ∧ step6 "x$$y".toList [] "__STYLE__".toList = "<style>x$y</style>".toList
      ∧ step6 "x$$y".toList [] "__STYLE__".toList ≠ "<style>x$$y</style>".toList := by
  decide

theorem nested_comment_step1 (d : Draws) :
    step1 d "<!<!-- a -->-- b -->".toList = "<!<!-- a -->-- b -->".toList := by
  rfl

theorem nested_comment_step2 (d : Draws) :
    step2 d "<!<!-- a -->-- b -->".toList = "<!<!-- a -->-- b -->".toList := by
  rfl

theorem nested_comment_step3 : step3 "<!<!-- a -->-- b -->".toList = "<!-- b -->".toList := by
  decide

theorem nested_comment_step4 : step4 "<!-- b -->".toList = "<!-- b -->".toList := by
  decide

theorem nested_comment_step5 (d : Draws) :
    step5 d "<!-- b -->".toList = "<!-- b -->".toList := by
  rfl

/-- C3 fails on the code: one pass of the comment expression over
`<!<!-- a -->-- b -->` removes `<!-- a -->` and leaves `<!-- b -->`, which
the later steps keep and which the comment expression itself matches whole,
whatever the random draws; the meta-tag step, which runs after the comment
step, joins `<!-<meta name=keywords>- b -->` into a comment the same way. -/
theorem comment_survives_stripping (d : Draws) :
    sanitizeTemplate d "<!<!-- a -->-- b -->".toList = "<!-- b -->".toList
      ∧ matchComment (sanitizeTemplate d "<!<!-- a -->-- b -->".toList) = some 10
      ∧ step4 (step3 "<!-<meta name=keywords>- b -->".toList) = "<!-- b -->".toList := by
  have h : sanitizeTemplate d "<!<!-- a -->-- b -->".toList = "<!-- b -->".toList := by
    unfold sanitizeTemplate
    rw [nested_comment_step1, nested_comment_step2, nested_comment_step3, nested_comment_step4,
      nested_comment_step5]
  refine ⟨h, ?_, by decide⟩
  rw [h]
  decide

/-! ## Occurrences of a literal, up to letter case -/

theorem up_append (a b : Str) : up (a ++ b) = up a ++ up b := by
  simp [up]

theorem up_cons (c : Char) (s : Str) : up (c :: s) = c.toUpper :: up s := rfl

theorem isPrefixCI_iff (q : Str) : ∀ b : Str, isPrefixCI q b = true ↔ up q <+: up b := by
  induction q with
  | nil => intro b; simp [isPrefixCI, up]
  | cons p ps ih =>
    intro b
    cases b with
    | nil => simp [isPrefixCI, up]
    | cons c cs =>
      simp only [isPrefixCI, up_cons, List.cons_prefix_cons, Bool.and_eq_true, ih cs, ciEq,
        beq_iff_eq]

theorem hasMatch_lit_iff (q : Str) : ∀ s : Str,
    hasMatch (matchLit true q) s = true ↔ up q <:+: up s := by
  have hsome : ∀ t : Str, (matchLit true q t).isSome = true ↔ up q <+: up t := by
    intro t
    rw [← isPrefixCI_iff]
    unfold matchLit
    by_cases h : isPrefixCI q t = true
    · simp [h]
    · simp [h]
  intro s
  induction s with
  | nil =>
    simp only [hasMatch, hsome]
    constructor
    · intro h; exact h.isInfix
    · intro h
      have : up q = [] := List.eq_nil_of_infix_nil h
      rw [this]
      exact List.nil_prefix
  | cons c cs ih =>
    simp only [hasMatch, Bool.or_eq_true, hsome, ih]
    rw [up_cons, List.infix_cons_iff, ← up_cons]

theorem agree_of_prefix : ∀ (S T B : Str), S <+: T ++ B → agree S T = true := by
  intro S
  induction S with
  | nil => intro T B _; rfl
  | cons s S ih =>
    intro T B h
    cases T with
    | nil => rfl
    | cons t T =>
      rw [List.cons_append, List.cons_prefix_cons] at h
      simp only [agree, Bool.and_eq_true, beq_iff_eq]
      exact ⟨h.1, ih T B h.2⟩

theorem agree_comm : ∀ (X Y : Str), agree X Y = agree Y X := by
  intro X
  induction X with
  | nil => intro Y; cases Y <;> rfl
  | cons x X ih =>
    intro Y
    cases Y with
    | nil => rfl
    | cons y Y =>
      simp only [agree, ih Y]
      rw [Bool.beq_comm]

theorem prefix_before_token (T B : Str) : ∀ (A S : Str), runsInto S T = false →
    S <+: A ++ T ++ B → S <+: A := by
  intro A
  induction A with
  | nil =>
    intro S hrun h
    cases S with
    | nil => exact List.nil_prefix
    | cons s S =>
      have hag := agree_of_prefix (s :: S) T B (by simpa using h)
      simp [runsInto, hag] at hrun
  | cons a A ih =>
    intro S hrun h
    cases S with
    | nil => exact List.nil_prefix
    | cons s S =>
      rw [List.cons_append, List.cons_append, List.cons_prefix_cons] at h
      rw [List.cons_prefix_cons]
      have hrun' : runsInto S T = false := by
        simp only [runsInto, Bool.or_eq_false_iff] at hrun
        exact hrun.2
      exact ⟨h.1, ih S hrun' h.2⟩

theorem infix_after_token (Q B : Str) : ∀ T : Str, runsInto T Q = false →
    Q <:+: T ++ B → Q <:+: B := by
  intro T
  induction T with
  | nil => intro _ h; simpa using h
  | cons t T ih =>
    intro hrun h
    simp only [runsInto, Bool.or_eq_false_iff] at hrun
    rw [List.cons_append, List.infix_cons_iff] at h
    rcases h with h | h
    · have hag := agree_of_prefix Q (t :: T) B (by simpa using h)
      rw [agree_comm] at hag
      rw [hag] at hrun
      exact absurd hrun.1 (by simp)
    · exact ih hrun.2 h

theorem separates_of_runsInto (Q tok : Str) (h1 : runsInto Q (up tok) = false)
    (h2 : runsInto (up tok) Q = false) : Separates Q tok := by
  intro A
  induction A with
  | nil =>
    intro B h
    exact Or.inr (infix_after_token Q B (up tok) h2 (by simpa using h))
  | cons a A ih =>
    intro B h
    rw [List.cons_append, List.cons_append, List.infix_cons_iff] at h
    rcases h with h | h
    · exact Or.inl (prefix_before_token (up tok) B (a :: A) Q h1 (by simpa using h)).isInfix
    · rcases ih B h with h | h
      · exact Or.inl (List.infix_cons h)
      · exact Or.inr h

theorem inert_spec (lit tok : Str) (h : inert lit tok = true) :
    Separates (up lit) tok ∧ '$' ∉ tok := by
  unfold inert at h
  simp only [Bool.and_eq_true, Bool.not_eq_true'] at h
  obtain ⟨⟨hd, h1⟩, h2⟩ := h
  refine ⟨separates_of_runsInto _ _ h1 h2, ?_⟩
  intro hm
  have : tok.contains '$' = true := by simpa using hm
  rw [hd] at this
  exact absurd this (by simp)

theorem getSubstitution_no_dollar (matched pre post : Str) :
    ∀ repl : Str, '$' ∉ repl → getSubstitution matched pre post repl = repl := by
  intro repl
  induction repl with
  | nil => intro _; rfl
  | cons c t ih =>
    intro h
    cases t with
    | nil => rfl
    | cons d t =>
      have hc : c ≠ '$' := fun e => h (e ▸ List.mem_cons_self _ _)
      have ht : '$' ∉ d :: t := fun hm => h (List.mem_cons_of_mem _ hm)
      rw [getSubstitution]
      simp only [hc, if_false]
      rw [ih ht]

theorem byString_no_dollar (tok pre matched post : Str) (h : '$' ∉ tok) :
    byString tok pre matched post = tok :=
  getSubstitution_no_dollar matched pre post tok h

/-- The text produced by a global replacement by the token `tok` has no
occurrence of `Q`, given an invariant `I acc s` on the text `acc` kept since
the last token and the text `s` still to scan. -/
theorem replaceAllFrom_free (Q : Str) (hQ : Q ≠ []) (m : Str → Option Nat) (tok : Str)
    (hsep : Separates Q tok) (hd : '$' ∉ tok) (I : Str → Str → Prop)
    (hfree : ∀ acc s, I acc s → ¬ Q <:+: up acc)
    (hnone : ∀ acc c cs, I acc (c :: cs) → m (c :: cs) = none → I (acc ++ [c]) cs)
    (hzero : ∀ acc c cs, I acc (c :: cs) → m (c :: cs) = some 0 → I [c] cs)
    (hskip : ∀ acc c cs, I acc (c :: cs) → I [] cs) :
    ∀ (s : Str) (skip : Nat) (acc pre : Str), I acc s → (0 < skip → acc = []) →
      ¬ Q <:+: up (acc ++ replaceAllFrom m (byString tok) pre skip s) := by
  intro s
  induction s with
  | nil =>
    intro skip acc pre hI _
    have hacc := hfree acc [] hI
    unfold replaceAllFrom
    by_cases hs : skip = 0
    · cases hm : m [] with
      | none => simpa [hs, hm] using hacc
      | some n =>
        simp only [hs, if_true, hm, byString_no_dollar tok pre [] [] hd]
        intro hocc
        rw [up_append] at hocc
        rcases hsep (up acc) [] (by simpa using hocc) with h | h
        · exact hacc h
        · exact hQ (List.infix_nil.mp h)
    · simpa [hs] using hacc
  | cons c cs ih =>
    intro skip acc pre hI hskip0
    have hacc := hfree acc _ hI
    cases skip with
    | succ k =>
      have : acc = [] := hskip0 (Nat.succ_pos k)
      subst this
      rw [replaceAllFrom]
      exact ih k [] (pre ++ [c]) (hskip [] c cs hI) (fun _ => rfl)
    | zero =>
      rw [replaceAllFrom]
      cases hm : m (c :: cs) with
      | none =>
        simp only []
        have := ih 0 (acc ++ [c]) (pre ++ [c]) (hnone acc c cs hI hm) (fun h => absurd h (by omega))
        simpa using this
      | some n =>
        cases n with
        | zero =>
          simp only [byString_no_dollar tok pre _ _ hd]
          intro hocc
          have e : up (acc ++ (tok ++ c :: replaceAllFrom m (byString tok) (pre ++ [c]) 0 cs))
              = up acc ++ up tok ++ up ([c] ++ replaceAllFrom m (byString tok) (pre ++ [c]) 0 cs) := by
            simp [up]
          rw [e] at hocc
          rcases hsep _ _ hocc with h | h
          · exact hacc h
          · exact ih 0 [c] (pre ++ [c]) (hzero acc c cs hI hm) (fun h => absurd h (by omega)) h
        | succ n =>
          simp only [byString_no_dollar tok pre _ _ hd]
          intro hocc
          have e : up (acc ++ (tok ++ replaceAllFrom m (byString tok) (pre ++ [c]) n cs))
              = up acc ++ up tok ++ up ([] ++ replaceAllFrom m (byString tok) (pre ++ [c]) n cs) := by
            simp [up]
          rw [e] at hocc
          rcases hsep _ _ hocc with h | h
          · exact hacc h
          · exact ih n [] (pre ++ [c]) (hskip acc c cs hI) (fun _ => rfl) h
theorem replaceAll_preserves_free (Q : Str) (hQ : Q ≠ []) (m : Str → Option Nat) (tok : Str)
    (hsep : Separates Q tok) (hd : '$' ∉ tok) (s : Str) (h : ¬ Q <:+: up s) :
    ¬ Q <:+: up (replaceAll m (byString tok) s) := by
  have key := replaceAllFrom_free Q hQ m tok hsep hd (fun acc s => ¬ Q <:+: up (acc ++ s))
    (fun acc s hI hocc => hI (by
      rw [up_append]
      exact hocc.trans (List.prefix_append _ _).isInfix))
    (fun acc c cs hI _ => by simpa using hI)
    (fun acc c cs hI _ hocc => hI (by
      rw [up_append]
      exact hocc.trans (List.suffix_append _ _).isInfix))
    (fun acc c cs hI hocc => hI (by
      rw [up_append, up_cons]
      exact hocc.trans ((List.suffix_cons _ _).isInfix.trans (List.suffix_append _ _).isInfix)))
    s 0 [] [] (by simpa using h) (fun h => absurd h (by omega))
  simpa [replaceAll] using key

theorem replaceAll_removes_lit (q : Str) (hq : q ≠ []) (tok : Str)
    (hsep : Separates (up q) tok) (hd : '$' ∉ tok) (s : Str) :
    ¬ up q <:+: up (replaceAll (matchLit true q) (byString tok) s) := by
  have hQ : up q ≠ [] := by
    cases q with
    | nil => exact absurd rfl hq
    | cons p ps => simp [up]
  have hQlen : 0 < (up q).length := List.length_pos.mpr hQ
  have key := replaceAllFrom_free (up q) hQ (matchLit true q) tok hsep hd
    (fun acc s => ∀ l r : Str, l ++ up q ++ r = up (acc ++ s) → acc.length ≤ l.length)
    (fun acc s hI hocc => by
      obtain ⟨l, r, hlr⟩ := hocc
      have h1 := hI l (r ++ up s) (by rw [up_append, ← hlr]; simp)
      have h2 := congrArg List.length hlr
      simp only [List.length_append, up, List.length_map] at h2
      simp only [up, List.length_map] at hQlen
      omega)
    (fun acc c cs hI hm l r hlr => by
      have hlr' : l ++ up q ++ r = up (acc ++ c :: cs) := by simpa using hlr
      have h1 := hI l r hlr'
      rcases Nat.lt_or_ge acc.length l.length with h2 | h2
      · simpa using h2
      · exfalso
        have hlen : l.length = (up acc).length := by
          simp only [up, List.length_map]
          omega
        rw [up_append, List.append_assoc] at hlr'
        have hpre : up q <+: up (c :: cs) := ⟨r, (List.append_inj hlr' hlen).2⟩
        have := (isPrefixCI_iff q (c :: cs)).mpr hpre
        simp [matchLit, this] at hm)
    (fun acc c cs _ hm => by
      exfalso
      by_cases hp : isPrefixCI q (c :: cs) = true
      · simp [matchLit, hp] at hm
        exact hq hm
      · simp [matchLit, hp] at hm)
    (fun acc c cs _ l r _ => Nat.zero_le _)
    s 0 [] [] (fun l r _ => Nat.zero_le _) (fun h => absurd h (by omega))
  simpa [replaceAll] using key

/-- C1, as the code has it: for every template and every choice of random
draws whose step-2 tokens are inert, the text after steps 1 and 2 contains no
case-insensitive occurrence of the brand literal `BPB-Worker-Panel` and none
of the display-name literal `BPB Panel`.  The brand token has to be inert
for the brand literal, the three tokens inserted after it for both literals;
nothing is asked of the title token.  The texts of the stylesheet and of the
script, injected by step 6, are not searched for the literals. -/
theorem literals_absent_after_step2 (d : Draws) (indexHtml : Str)
    (hb : inert brandLiteral (randomString 12 d.brand) = true)
    (hdb : inert brandLiteral (randomString 10 d.display) = true)
    (hdd : inert displayLiteral (randomString 10 d.display) = true)
    (htb : inert brandLiteral (randomString 6 d.versionTag) = true)
    (htd : inert displayLiteral (randomString 6 d.versionTag) = true)
    (hnb : inert brandLiteral (randomString 6 d.versionNum) = true)
    (hnd : inert displayLiteral (randomString 6 d.versionNum) = true) :
    hasMatch matchBrand (step2 d (step1 d indexHtml)) = false
      ∧ hasMatch matchDisplay (step2 d (step1 d indexHtml)) = false := by
  have hbl : brandLiteral ≠ [] := by decide
  have hdl : displayLiteral ≠ [] := by decide
  have hBQ : up brandLiteral ≠ [] := by decide
  have hDQ : up displayLiteral ≠ [] := by decide
  obtain ⟨b1, bd⟩ := inert_spec brandLiteral _ hb
  obtain ⟨d1, dd⟩ := inert_spec brandLiteral _ hdb
  obtain ⟨d2, _⟩ := inert_spec displayLiteral _ hdd
  obtain ⟨t1, td⟩ := inert_spec brandLiteral _ htb
  obtain ⟨t2, _⟩ := inert_spec displayLiteral _ htd
  obtain ⟨n1, nd⟩ := inert_spec brandLiteral _ hnb
  obtain ⟨n2, _⟩ := inert_spec displayLiteral _ hnd
  have e1 := replaceAll_removes_lit brandLiteral hbl _ b1 bd (step1 d indexHtml)
  have e2 := replaceAll_preserves_free _ hBQ matchDisplay _ d1 dd _ e1
  have f2 := replaceAll_removes_lit displayLiteral hdl _ d2 dd
    (replaceAll (matchLit true brandLiteral) (byString (randomString 12 d.brand))
      (step1 d indexHtml))
  have e3 := replaceAll_preserves_free _ hBQ matchVersionTag _ t1 td _ e2
  have f3 := replaceAll_preserves_free _ hDQ matchVersionTag _ t2 td _ f2
  have e4 := replaceAll_preserves_free _ hBQ matchVersionNum _ n1 nd _ e3
  have f4 := replaceAll_preserves_free _ hDQ matchVersionNum _ n2 nd _ f3
  constructor
  · rw [← Bool.not_eq_true, matchBrand, hasMatch_lit_iff]
    exact e4
  · rw [← Bool.not_eq_true, matchDisplay, hasMatch_lit_iff]
    exact f4

/-- Witness of `literals_absent_after_step2`: draws whose tokens begin and
end with letters of the literals, on a template that names the brand, the
display name and two versions. -/
theorem literals_absent_after_step2_witness :
    hasMatch matchBrand
        (step2 letterDraws (step1 letterDraws
          "<title>BPB Panel</title><h1>bpb-worker-panel v1.2.3 v__PANEL_VERSION__</h1>".toList))
        = false
      ∧ hasMatch matchDisplay
        (step2 letterDraws (step1 letterDraws
          "<title>BPB Panel</title><h1>bpb-worker-panel v1.2.3 v__PANEL_VERSION__</h1>".toList))
        = false :=
  literals_absent_after_step2 letterDraws
    "<title>BPB Panel</title><h1>bpb-worker-panel v1.2.3 v__PANEL_VERSION__</h1>".toList
    (by decide) (by decide) (by decide) (by decide) (by decide) (by decide) (by decide)

/-- C1 as stated fails, in three ways.  The stylesheet and the script are
injected after the literal replacement, so a literal they carry reaches the
document handed to the minifier.  The comment step, run after the
replacement, joins `BPB-Wor<!--x-->ker-Panel` into the brand literal.  And
within step 2 a token can rebuild the literal with the text next to it: the
token `k2m9qd70cbpb` before `-Worker-Panel`, or the empty token of the draw 0
between `BPB-Worker-` and `Panel`. -/
theorem literals_survive_sanitising :
    hasMatch matchBrand
        (finalHtml sampleDraws "<head>__STYLE__</head><body>__SCRIPT__</body>".toList
          "/* BPB-Worker-Panel */".toList "t=\"BPB Panel\"".toList) = true
      ∧ hasMatch matchDisplay
        (finalHtml sampleDraws "<head>__STYLE__</head><body>__SCRIPT__</body>".toList
          "/* BPB-Worker-Panel */".toList "t=\"BPB Panel\"".toList) = true
      ∧ finalHtml sampleDraws "<p>BPB-Wor<!--x-->ker-Panel</p>".toList [] []
        = "<p>BPB-Worker-Panel</p>".toList
      ∧ validRendering stitchDraws.brand = true
      ∧ step2 stitchDraws (step1 stitchDraws "BPB-Worker-Panel-Worker-Panel".toList)
        = "k2m9qd70cbpb-Worker-Panel".toList
      ∧ hasMatch matchBrand
        (step2 stitchDraws (step1 stitchDraws "BPB-Worker-Panel-Worker-Panel".toList)) = true
      ∧ validRendering zeroDraws.brand = true
      ∧ step2 zeroDraws (step1 zeroDraws "BPB-Worker-BPB-Worker-PanelPanel".toList)
        = "BPB-Worker-Panel".toList := by
  decide

/-! ## The title element -/

theorem up_length (s : Str) : (up s).length = s.length := by
  simp [up]

theorem prefix_within (Q X Y : Str) (hX : X ≠ []) (h : Q <+: X ++ Y) :
    Q <+: X ++ Y.take (Q.length - 1) := by
  rw [List.prefix_iff_eq_take] at h ⊢
  have hXlen : 0 < X.length := List.length_pos.mpr hX
  rw [List.take_append_eq_append_take] at h ⊢
  rw [List.take_take]
  have : min (Q.length - X.length) (Q.length - 1) = Q.length - X.length := by omega
  rw [this]
  exact h

theorem replaceFirstFrom_skip (m : Str → Option Nat) (r : Replacer) (rest : Str) :
    ∀ (pre acc : Str), (∀ a b, pre = a ++ b → b ≠ [] → m (b ++ rest) = none) →
      replaceFirstFrom m r acc (pre ++ rest) = pre ++ replaceFirstFrom m r (acc ++ pre) rest := by
  intro pre
  induction pre with
  | nil => intro acc _; simp
  | cons c pre ih =>
    intro acc h
    have h0 : m (c :: (pre ++ rest)) = none := h [] (c :: pre) rfl (by simp)
    rw [List.cons_append, replaceFirstFrom]
    simp only [h0]
    rw [ih (acc ++ [c]) (fun a b hab hb => h (c :: a) b (by rw [hab]; rfl) hb)]
    simp

theorem replaceFirstFrom_match (m : Str → Option Nat) (r : Replacer) (acc s : Str) (n : Nat)
    (h : m s = some n) :
    replaceFirstFrom m r acc s = r acc (s.take n) (s.drop n) ++ s.drop n := by
  cases s with
  | nil => simp [replaceFirstFrom, h]
  | cons c cs => simp [replaceFirstFrom, h]

theorem matchLit_ci_of_up_prefix (q s : Str) (h : up q <+: up s) :
    matchLit true q s = some q.length := by
  simp [matchLit, (isPrefixCI_iff q s).mpr h]

theorem matchLit_ci_none (q s : Str) (h : ¬ up q <+: up s) : matchLit true q s = none := by
  have : isPrefixCI q s = false := by
    rw [← Bool.not_eq_true, isPrefixCI_iff]
    exact h
  simp [matchLit, this]

theorem lazyUntil_content (cls : Char → Bool) (close closing post : Str)
    (hclose : up closing = up close) (hne : close ≠ []) :
    ∀ content : Str, (∀ c ∈ content, cls c = true) →
      ¬ up close <:+: up (content ++ closing.dropLast) →
      lazyUntil cls true close (content ++ closing ++ post)
        = some (content.length + close.length) := by
  have hlen : closing.length = close.length := by
    have := congrArg List.length hclose
    simpa [up] using this
  have hpos : 0 < close.length := List.length_pos.mpr hne
  intro content
  induction content with
  | nil =>
    intro _ _
    have hm : matchLit true close (closing ++ post) = some close.length :=
      matchLit_ci_of_up_prefix close _ (by rw [up_append, hclose]; exact List.prefix_append _ _)
    rw [List.nil_append, List.length_nil, Nat.zero_add]
    cases hcp : closing ++ post with
    | nil =>
      have : (closing ++ post).length = 0 := by rw [hcp]; rfl
      simp only [List.length_append] at this
      omega
    | cons y ys =>
      rw [hcp] at hm
      rw [lazyUntil, hm]
  | cons x xs ih =>
    intro hcls hfree
    have hnone : matchLit true close (x :: (xs ++ closing ++ post)) = none := by
      apply matchLit_ci_none
      intro hp
      apply hfree
      have e : up (x :: (xs ++ closing ++ post)) = up (x :: xs) ++ (up closing ++ up post) := by
        simp [up]
      rw [e] at hp
      have hw := prefix_within (up close) (up (x :: xs)) (up closing ++ up post) (by simp [up]) hp
      have e2 : (up closing ++ up post).take ((up close).length - 1) = up closing.dropLast := by
        rw [up_length, List.take_append_of_le_length (by rw [up_length]; omega)]
        simp only [up, List.dropLast_eq_take, List.map_take, hlen]
      rw [e2, ← up_append] at hw
      exact hw.isInfix
    have hx : cls x = true := hcls x (List.mem_cons_self _ _)
    have hrec := ih (fun c hc => hcls c (List.mem_cons_of_mem _ hc)) (fun hocc => hfree (by
      rw [List.cons_append, up_cons]
      exact List.infix_cons hocc))
    show lazyUntil cls true close (x :: (xs ++ closing ++ post)) = _
    rw [lazyUntil, hnone]
    simp only [hx, if_true, hrec, Option.map_some', List.length_cons]
    congr 1
    omega
theorem matchTitle_at_opening (opening content closing post : Str)
    (hopen : up opening = up "<title>".toList)
    (hclose : up closing = up "</title>".toList)
    (hline : ∀ c ∈ content, isLineTerminator c = false)
    (hcontent : ¬ up "</title>".toList <:+: up (content ++ closing.dropLast)) :
    matchTitle (opening ++ content ++ closing ++ post)
      = some (opening ++ content ++ closing).length := by
  have holen : opening.length = 7 := by
    have := congrArg List.length hopen
    simpa [up] using this
  have hclen : closing.length = 8 := by
    have := congrArg List.length hclose
    simpa [up] using this
  have hpre : isPrefixCI "<title>".toList (opening ++ content ++ closing ++ post) = true := by
    rw [isPrefixCI_iff, List.append_assoc, List.append_assoc, up_append, hopen]
    exact List.prefix_append _ _
  have hdrop : (opening ++ content ++ closing ++ post).drop 7 = content ++ closing ++ post := by
    rw [List.append_assoc, List.append_assoc, ← holen, List.drop_left, List.append_assoc]
  have hlazy := lazyUntil_content (fun c => !isLineTerminator c) "</title>".toList closing post
    hclose (by decide) content (fun c hc => by simp [hline c hc]) hcontent
  unfold matchTitle
  rw [if_pos hpre, hdrop, hlazy]
  have h8 : "</title>".toList.length = 8 := rfl
  simp only [Option.map_some', List.length_append, holen, hclen, h8, Option.some.injEq]
  omega

/-- What step 1 does replace: when the first `<title>` of the template is an
opening tag without attributes (in any letter case), followed by a content
without line terminator and then by the first closing tag `</title>` (in any
letter case), step 1 replaces that element by `<title>`, the generated
identifier and `</title>`, and leaves the text before and after it
unchanged.  The identifier is taken free of `$`, which
`randomString_no_dollar` gives for every rendering of a draw.  A title tag
with attributes or a content that spans several lines is not matched by the
expression of line 40. -/
theorem step1_replaces_first_plain_title (d : Draws) (pre opening content closing post : Str)
    (hopen : up opening = up "<title>".toList)
    (hclose : up closing = up "</title>".toList)
    (hfirst : hasMatch (matchLit true "<title>".toList) (pre ++ opening.dropLast) = false)
    (hline : ∀ c ∈ content, isLineTerminator c = false)
    (hcontent : hasMatch (matchLit true "</title>".toList) (content ++ closing.dropLast) = false)
    (hd : '$' ∉ randomString 10 d.title) :
    step1 d (pre ++ opening ++ content ++ closing ++ post)
      = pre ++ "<title>".toList ++ randomString 10 d.title ++ "</title>".toList ++ post := by
  have holen : opening.length = 7 := by
    have := congrArg List.length hopen
    simpa [up] using this
  have hfirst' : ¬ up "<title>".toList <:+: up (pre ++ opening.dropLast) := by
    rw [← hasMatch_lit_iff, hfirst]
    exact Bool.false_ne_true
  have hcontent' : ¬ up "</title>".toList <:+: up (content ++ closing.dropLast) := by
    rw [← hasMatch_lit_iff, hcontent]
    exact Bool.false_ne_true
  have hskip : ∀ a b, pre = a ++ b → b ≠ [] →
      matchTitle (b ++ (opening ++ content ++ closing ++ post)) = none := by
    intro a b hab hb
    have hnp : isPrefixCI "<title>".toList (b ++ (opening ++ content ++ closing ++ post)) = false := by
      rw [← Bool.not_eq_true, isPrefixCI_iff]
      intro hp
      apply hfirst'
      rw [up_append] at hp
      have hw := prefix_within _ (up b) _ (by
        cases b with
        | nil => exact absurd rfl hb
        | cons x xs => simp [up]) hp
      have e : (up (opening ++ content ++ closing ++ post)).take
          ((up "<title>".toList).length - 1) = up opening.dropLast := by
        have h6 : (up "<title>".toList).length - 1 = 6 := by decide
        rw [h6, List.append_assoc, List.append_assoc, up_append,
          List.take_append_of_le_length (by rw [up_length]; omega)]
        simp only [up, List.dropLast_eq_take, List.map_take, holen]
      rw [e, ← up_append] at hw
      rw [hab, List.append_assoc, up_append]
      exact hw.isInfix.trans (List.suffix_append _ _).isInfix
    unfold matchTitle
    rw [if_neg (by rw [hnp]; exact Bool.false_ne_true)]
  have hmatch := matchTitle_at_opening opening content closing post hopen hclose hline hcontent'
  have hrepl : '$' ∉ "<title>".toList ++ randomString 10 d.title ++ "</title>".toList := by
    intro hm
    simp only [List.mem_append] at hm
    rcases hm with (hm | hm) | hm
    · exact absurd hm (by decide)
    · exact hd hm
    · exact absurd hm (by decide)
  unfold step1 replaceFirst
  have hassoc : pre ++ opening ++ content ++ closing ++ post
      = pre ++ (opening ++ content ++ closing ++ post) := by
    simp
  rw [hassoc, replaceFirstFrom_skip matchTitle _ _ pre [] hskip,
    replaceFirstFrom_match matchTitle _ _ _ _ hmatch, byString_no_dollar _ _ _ _ hrepl]
  have hdrop : (opening ++ content ++ closing ++ post).drop (opening ++ content ++ closing).length
      = post := List.drop_left _ _
  rw [hdrop]
  simp

/-- Witness of `step1_replaces_first_plain_title`: the template of the
specification, with an upper-case closing tag. -/
theorem step1_replaces_first_plain_title_witness :
    step1 sampleDraws
        ("<html><head>".toList ++ "<title>".toList ++ "Old".toList ++ "</TITLE>".toList
          ++ "</head></html>".toList)
      = "<html><head>".toList ++ "<title>".toList ++ randomString 10 sampleDraws.title
          ++ "</title>".toList ++ "</head></html>".toList :=
  step1_replaces_first_plain_title sampleDraws "<html><head>".toList "<title>".toList
    "Old".toList "</TITLE>".toList "</head></html>".toList
    (by decide) (by decide) (by decide) (by decide) (by decide) (by decide)

/-- C10 fails on the code: a title tag with an attribute and a title whose
content spans two lines are not matched by the expression of line 40, and
step 1 returns the template unchanged, the title still `Old`, whatever
identifier was generated. -/
theorem title_with_attribute_or_newline_kept (d : Draws) :
    step1 d "<title lang=\"en\">Old</title>".toList
        = "<title lang=\"en\">Old</title>".toList
      ∧ step1 d "<title>Old\nName</title>".toList
        = "<title>Old\nName</title>".toList :=
  ⟨rfl, rfl⟩

end BuildJs
